import Mathlib

/-!
Shallow embedding of the adaptive frame cache and linearizing request
scheduler of src/core/cachefilter.cpp (the VSCache class and the
cacheGetframe callback), together with theorems checking the
specification claims against the embedded code.

Modelling conventions: machine int fields become Int (sizes, capacities,
frame indices); the statistics counters, which start at zero and are only
ever incremented, become Nat. Overflow is irrelevant at the magnitudes
the policies compare. A reference-counted frame pointer is modelled as
Option Nat: some payload for a held frame, none for a released one. The
intrusive doubly linked recency list with its first/last/weakpoint
pointers is modelled as a List of nodes (head = first = most recently
used) with the weakpoint as an optional index into that list. The hash
table and the list agree on membership, so key lookup is list search.
Members declared only in cachefilter.h (not part of the given sources)
are modelled from the specification and marked as such.
-/

namespace VSClassic

/-- A node of the recency list: a frame index key and the optionally held
payload (none once the node has been demoted to a ghost). -/
structure Node where
  key : Int
  frame : Option Nat
  deriving DecidableEq, Repr

/-- Resize recommendation, mirroring VSCache::CacheAction. -/
inductive CacheAction where
  | Clear
  | Grow
  | Shrink
  | NoChange
  deriving DecidableEq, Repr

/-- The VSCache state. entries is the recency list from first (most
recently used) to last (least recently used); weakpoint is the index of
the boundary node: nodes from that index onward form the ghost region. -/
structure VSCache where
  entries : List Node
  weakpoint : Option Nat
  currentSize : Int
  historySize : Int
  maxSize : Int
  maxHistorySize : Int
  fixedSize : Bool
  hits : Nat
  nearMiss : Nat
  farMiss : Nat
  deriving DecidableEq, Repr

/-- Modelled from the spec: VSCache::clearStats (declared in
cachefilter.h, which is not among the given sources) resets the
accumulated statistics, hits = nearMisses = farMisses = 0. -/
def VSCache.clearStats (s : VSCache) : VSCache :=
  { s with hits := 0, nearMiss := 0, farMiss := 0 }

/-- Modelled from the spec: VSCache::clear (declared in cachefilter.h)
destroys all entries and resets the counters and the boundary to empty,
keeping the configured capacities. -/
def VSCache.clear (s : VSCache) : VSCache :=
  { s with entries := [], weakpoint := none, currentSize := 0, historySize := 0,
           hits := 0, nearMiss := 0, farMiss := 0 }

/-- Modelled from the spec: VSCache::getMaxFrames (cachefilter.h), the
trivial accessor for the live capacity maxSize. -/
def VSCache.getMaxFrames (s : VSCache) : Int := s.maxSize

/-- Modelled from the spec: VSCache::setMaxFrames (cachefilter.h), the
trivial setter for the live capacity maxSize. -/
def VSCache.setMaxFrames (s : VSCache) (m : Int) : VSCache := { s with maxSize := m }

/-- VSCache::recommendSize (cachefilter.cpp lines 27-60): evaluates the
accumulated statistics and returns the chosen action together with the
updated state. The stats are cleared only on the three branches reached
after the two early returns, exactly as in the source. -/
def VSCache.recommendSize (s : VSCache) : CacheAction × VSCache :=
  if s.hits + s.nearMiss + s.farMiss = 0 then
    (CacheAction.Clear, s)
  else if s.hits + s.nearMiss + s.farMiss < 30 then
    (CacheAction.NoChange, s)
  else if s.nearMiss * 20 ≥ s.hits + s.nearMiss + s.farMiss then
    (CacheAction.Grow, s.clearStats)
  else if s.nearMiss = 0 ∧ s.hits = 0 then
    (CacheAction.Shrink, s.clearStats)
  else
    (CacheAction.NoChange, s.clearStats)

/-- VSCache::adjustSize (cachefilter.cpp lines 127-161): applies the
recommendation under the normal or the memory-pressure regime. -/
def VSCache.adjustSize (s : VSCache) (needMemory : Bool) : VSCache :=
  if s.fixedSize then s
  else match needMemory with
  | false =>
    match s.recommendSize with
    | (CacheAction.Clear, t) =>
        let t1 := t.clear
        t1.setMaxFrames (max (t1.getMaxFrames - 2) 0)
    | (CacheAction.Grow, t) => t.setMaxFrames (t.getMaxFrames + 2)
    | (CacheAction.Shrink, t) => t.setMaxFrames (max (t.getMaxFrames - 1) 0)
    | (CacheAction.NoChange, t) => t
  | true =>
    match s.recommendSize with
    | (CacheAction.Clear, t) =>
        let t1 := t.clear
        t1.setMaxFrames (max (t1.getMaxFrames - 2) 0)
    | (CacheAction.Shrink, t) => t.setMaxFrames (max (t.getMaxFrames - 2) 0)
    | (CacheAction.NoChange, t) =>
        let t1 := if t.getMaxFrames ≤ 1 then t.clear else t
        t1.setMaxFrames (max (t1.getMaxFrames - 1) 1)
    | (CacheAction.Grow, t) => t

/-- A freshly constructed VSCache(maxSize, maxHistorySize, fixedSize):
the constructor stores the capacities and calls clear(). -/
def VSCache.mk0 (maxSize maxHistorySize : Int) (fixedSize : Bool) : VSCache :=
  { entries := [], weakpoint := none, currentSize := 0, historySize := 0,
    maxSize := maxSize, maxHistorySize := maxHistorySize, fixedSize := fixedSize,
    hits := 0, nearMiss := 0, farMiss := 0 }

/-- Replace the frame at position j by none: the demotion step
weakpoint->frame.reset() of VSCache::trim. -/
def clearFrameAt : List Node → Nat → List Node
  | [], _ => []
  | nd :: rest, 0 => { nd with frame := none } :: rest
  | nd :: rest, j + 1 => nd :: clearFrameAt rest j

/-- Remove the node at position j from the recency list. -/
def eraseAt : List Node → Nat → List Node
  | [], _ => []
  | _ :: rest, 0 => rest
  | nd :: rest, j + 1 => nd :: eraseAt rest j

/-- The node at position j of the recency list, if any. -/
def nodeAt? : List Node → Nat → Option Node
  | [], _ => none
  | nd :: _, 0 => some nd
  | _ :: rest, j + 1 => nodeAt? rest j

/-- Position of the node holding the given key: the hash.find lookup
(the hash table and the recency list agree on membership). -/
def findKeyIdx : List Node → Int → Option Nat
  | [], _ => none
  | nd :: rest, k => if nd.key = k then some 0 else (findKeyIdx rest k).map (· + 1)

/-- Whether some node of the cache holds the given key. -/
def VSCache.containsKey (s : VSCache) (key : Int) : Bool :=
  s.entries.any (fun nd => decide (nd.key = key))

/-- Modelled from the spec: VSCache::unlink (cachefilter.h) removes the
node at position j from the index and the recency list, decrementing
currentSize if the node still held its frame and historySize otherwise; a
weakpoint pointing at the removed node moves one step toward the tail
(to the following node, or to none at the tail), and weakpoint indices
past the removal point shift down with the list. -/
def VSCache.unlinkAt (s : VSCache) (j : Nat) : VSCache :=
  match nodeAt? s.entries j with
  | none => s
  | some nd =>
    { s with
      entries := eraseAt s.entries j,
      currentSize := if nd.frame.isSome then s.currentSize - 1 else s.currentSize,
      historySize := if nd.frame.isSome then s.historySize else s.historySize - 1,
      weakpoint :=
        match s.weakpoint with
        | none => none
        | some i =>
          if j < i then some (i - 1)
          else if j = i then (if j + 1 < s.entries.length then some j else none)
          else some i }

/-- VSCache::remove (cachefilter.cpp lines 71-80): hash.find on the key,
returning false when absent, else unlink and return true. -/
def VSCache.remove (s : VSCache) (key : Int) : Bool × VSCache :=
  match findKeyIdx s.entries key with
  | none => (false, s)
  | some j => (true, s.unlinkAt j)

/-- One pass of the first loop of VSCache::trim (lines 108-119): move the
weakpoint one step toward the head (starting from last when unset), drop
the frame it now covers, and update the counters. -/
def VSCache.trimLiveStep (s : VSCache) : VSCache :=
  let w :=
    match s.weakpoint with
    | none => if s.entries.length = 0 then none else some (s.entries.length - 1)
    | some i => if i = 0 then none else some (i - 1)
  { s with
    weakpoint := w,
    entries :=
      match w with
      | some j => clearFrameAt s.entries j
      | none => s.entries,
    currentSize := s.currentSize - 1,
    historySize := s.historySize + 1 }

/-- The first trim loop with explicit fuel: while currentSize > max,
demote. The fuel passed by trim equals the number of iterations the
source loop makes, so the fuelled loop never stops early. -/
def VSCache.trimLiveLoop : VSCache → Int → Nat → VSCache
  | s, _, 0 => s
  | s, mx, fuel + 1 =>
      if s.currentSize > mx then VSCache.trimLiveLoop s.trimLiveStep mx fuel else s

/-- The second trim loop with explicit fuel: while the list is nonempty
and historySize > maxHistory, unlink the last node (lines 122-124). Each
pass removes a node, so fuel = list length never stops the loop early. -/
def VSCache.trimGhostLoop : VSCache → Int → Nat → VSCache
  | s, _, 0 => s
  | s, mh, fuel + 1 =>
      if s.entries ≠ [] ∧ s.historySize > mh then
        VSCache.trimGhostLoop (s.unlinkAt (s.entries.length - 1)) mh fuel
      else s

/-- VSCache::trim (cachefilter.cpp lines 106-125): first the demotion
loop, then the history-unlinking loop on its result. -/
def VSCache.trim (s : VSCache) (mx mh : Int) : VSCache :=
  VSCache.trimGhostLoop (s.trimLiveLoop mx (s.currentSize - mx).toNat) mh
    (s.trimLiveLoop mx (s.currentSize - mx).toNat).entries.length

/-- VSCache::insert (cachefilter.cpp lines 83-103): remove any existing
node with this key, link the new live node at the head of the recency
list (the weakpoint index shifts up as the list gains a node in front of
it), bump currentSize, trim with the configured capacities, return true. -/
def VSCache.insert (s : VSCache) (akey : Int) (v : Nat) : Bool × VSCache :=
  let s1 := (s.remove akey).2
  let s2 := { s1 with
    entries := ⟨akey, some v⟩ :: s1.entries,
    currentSize := s1.currentSize + 1,
    weakpoint := s1.weakpoint.map (· + 1) }
  (true, s2.trim s2.maxSize s2.maxHistorySize)

/-- Modelled from the spec: VSCache::relink (cachefilter.h), the lookup
behind VSCache::object. A missing key counts a far miss and yields
nothing; a found node is promoted to the head of the recency list and
counts a hit when its frame is still held (the frame is returned) or a
near miss when the node is a ghost (nothing returned). The weakpoint
index follows the node it points at, as a pointer would. -/
def VSCache.relink (s : VSCache) (key : Int) : Option Nat × VSCache :=
  match findKeyIdx s.entries key with
  | none => (none, { s with farMiss := s.farMiss + 1 })
  | some j =>
    match nodeAt? s.entries j with
    | none => (none, s)
    | some nd =>
      let moved := nd :: eraseAt s.entries j
      let wp :=
        match s.weakpoint with
        | none => none
        | some i => if j < i then some i else if j = i then some 0 else some (i + 1)
      match nd.frame with
      | some v =>
          (some v, { s with entries := moved, weakpoint := wp, hits := s.hits + 1 })
      | none =>
          (none, { s with entries := moved, weakpoint := wp, nearMiss := s.nearMiss + 1 })

/-- The boundary position splitting the live prefix from the ghost
suffix: the weakpoint index, or the list length when no weakpoint. -/
def VSCache.boundary (s : VSCache) : Nat :=
  match s.weakpoint with
  | none => s.entries.length
  | some i => i

/-- The data-model invariant of a cache state: the boundary splits the
recency list into a live prefix (frames held) and a ghost suffix (frames
released), and the two counters equal the two region sizes. -/
def VSCache.wf (s : VSCache) : Prop :=
  s.boundary ≤ s.entries.length ∧
  (∀ nd ∈ s.entries.take s.boundary, nd.frame.isSome = true) ∧
  (∀ nd ∈ s.entries.drop s.boundary, nd.frame = none) ∧
  s.currentSize = (s.boundary : Int) ∧
  s.historySize = ((s.entries.length - s.boundary : Nat) : Int)

instance (s : VSCache) : Decidable s.wf :=
  inferInstanceAs (Decidable (s.boundary ≤ s.entries.length ∧
    (∀ nd ∈ s.entries.take s.boundary, nd.frame.isSome = true) ∧
    (∀ nd ∈ s.entries.drop s.boundary, nd.frame = none) ∧
    s.currentSize = (s.boundary : Int) ∧
    s.historySize = ((s.entries.length - s.boundary : Nat) : Int)))

/-- The lookahead margin constant of the scheduler (cachefilter.cpp line
164). -/
def extraFrames : Int := 7

/-- The inclusive integer range lo..hi: the request loop
for i = lo; i ≤ hi; i++. -/
def intRange (lo hi : Int) : List Int :=
  (List.range (hi + 1 - lo).toNat).map (fun (k : Nat) => lo + (k : Int))

/-- The per-node scheduler state (CacheInstance): the cache, the index of
the previous request, the worker thread count, and the linearize flag. -/
structure CacheInstance where
  cache : VSCache
  lastN : Int
  numThreads : Int
  makeLinear : Bool
  deriving DecidableEq, Repr

/-- Outcome of the initial activation phase: the frame returned on a hit,
the indices passed to requestFrameFilter in order, the marker written to
frameData (none when untouched, on the hit path), and the updated
instance. -/
structure InitialResult where
  returned : Option Nat
  requests : List Int
  fd : Option Int
  inst : CacheInstance
  deriving DecidableEq, Repr

/-- cacheGetframe, arInitial branch (cachefilter.cpp lines 171-189): look
the frame up in the cache; a hit returns it at once, touching nothing
else. On a miss, when linearization is on and n lies strictly inside the
lookahead window lastN..lastN+numThreads+extraFrames without being the
direct successor, request the whole run lastN+1..n and record marker
lastN; otherwise request n alone and record the no-batch marker -2. Both
miss paths then set lastN = n. -/
def cacheGetframeInitial (c : CacheInstance) (n : Int) : InitialResult :=
  match (c.cache.relink n).1 with
  | some fr => ⟨some fr, [], none, { c with cache := (c.cache.relink n).2 }⟩
  | none =>
    if c.makeLinear = true ∧ n ≠ c.lastN + 1 ∧ n > c.lastN ∧
        n < c.lastN + c.numThreads + extraFrames then
      ⟨none, intRange (c.lastN + 1) n, some c.lastN,
        { c with cache := (c.cache.relink n).2, lastN := n }⟩
    else
      ⟨none, [n], some (-2), { c with cache := (c.cache.relink n).2, lastN := n }⟩

/-- Outcome of the ready activation phase: the frame returned, the keys
inserted into the cache in order, and the updated instance. -/
structure ReadyResult where
  returned : Nat
  inserted : List Int
  inst : CacheInstance
  deriving DecidableEq, Repr

/-- cacheGetframe, arAllFramesReady branch (cachefilter.cpp lines
190-201): when the carried marker is at least -1, fetch every
intermediate frame marker+1..n-1 and insert it into the cache; then
fetch frame n, insert it, and return it. upstream maps an index to the
frame getFrameFilter yields for it. -/
def cacheGetframeReady (c : CacheInstance) (n fd : Int) (upstream : Int → Nat) :
    ReadyResult :=
  let pre := if fd ≥ -1 then intRange (fd + 1) (n - 1) else []
  let cache1 := pre.foldl (fun cc i => (cc.insert i (upstream i)).2) c.cache
  ⟨upstream n, pre ++ [n], { c with cache := (cache1.insert n (upstream n)).2 }⟩

/-- createCacheFilter capacity selection (cachefilter.cpp lines 224-231):
the explicit size parameter when present and positive, else the
linearization default, else 20. sizeGiven models !err after
mapGetIntSaturated. -/
def creationMaxFrames (sizeGiven : Bool) (size : Int) (makeLinear : Bool)
    (numThreads : Int) : Int :=
  if sizeGiven = true ∧ size > 0 then size
  else if makeLinear = true then max ((numThreads + extraFrames) * 2) (20 + numThreads)
  else 20

/-- A small concrete cache state used as a witness input: one live node,
one ghost node, both capacities 1. -/
def sampleCache : VSCache :=
  { entries := [⟨1, some 4⟩, ⟨2, none⟩], weakpoint := some 1, currentSize := 1,
    historySize := 1, maxSize := 1, maxHistorySize := 1, fixedSize := false,
    hits := 0, nearMiss := 0, farMiss := 0 }

/-- The action chosen by recommendSize, as a conditional chain. -/
theorem recommendSize_fst (s : VSCache) :
    s.recommendSize.1 =
      if s.hits + s.nearMiss + s.farMiss = 0 then CacheAction.Clear
      else if s.hits + s.nearMiss + s.farMiss < 30 then CacheAction.NoChange
      else if s.nearMiss * 20 ≥ s.hits + s.nearMiss + s.farMiss then CacheAction.Grow
      else if s.nearMiss = 0 ∧ s.hits = 0 then CacheAction.Shrink
      else CacheAction.NoChange := by
  unfold VSCache.recommendSize
  split_ifs <;> rfl

/-- The state returned by recommendSize: unchanged on the two early
returns, statistics cleared otherwise. -/
theorem recommendSize_snd (s : VSCache) :
    s.recommendSize.2 =
      if s.hits + s.nearMiss + s.farMiss = 0 then s
      else if s.hits + s.nearMiss + s.farMiss < 30 then s
      else s.clearStats := by
  unfold VSCache.recommendSize
  split_ifs <;> rfl

/-- The state returned by recommendSize differs from the input at most in
the statistics fields. -/
theorem recommendSize_snd_fields (s : VSCache) :
    (s.recommendSize.2.entries = s.entries) ∧
    (s.recommendSize.2.weakpoint = s.weakpoint) ∧
    (s.recommendSize.2.currentSize = s.currentSize) ∧
    (s.recommendSize.2.historySize = s.historySize) ∧
    (s.recommendSize.2.maxSize = s.maxSize) ∧
    (s.recommendSize.2.maxHistorySize = s.maxHistorySize) ∧
    (s.recommendSize.2.fixedSize = s.fixedSize) := by
  rw [recommendSize_snd]
  split_ifs <;> simp [VSCache.clearStats]

/-- adjustSize under memory pressure with auto-resizing enabled, as a
case split on the recommendation. -/
theorem adjust_true_eq (s : VSCache) (hfs : s.fixedSize = false) :
    s.adjustSize true =
      match s.recommendSize with
      | (CacheAction.Clear, t) =>
          (t.clear).setMaxFrames (max ((t.clear).getMaxFrames - 2) 0)
      | (CacheAction.Shrink, t) => t.setMaxFrames (max (t.getMaxFrames - 2) 0)
      | (CacheAction.NoChange, t) =>
          (if t.getMaxFrames ≤ 1 then t.clear else t).setMaxFrames
            (max ((if t.getMaxFrames ≤ 1 then t.clear else t).getMaxFrames - 1) 1)
      | (CacheAction.Grow, t) => t := by
  unfold VSCache.adjustSize
  rw [hfs]
  rfl

/-- C1: recommendSize returns Clear when the statistics total is zero,
NoChange when the total is positive but below 30, and otherwise Grow when
nearMiss * 20 ≥ total, else Shrink when nearMiss = 0 and hits = 0, else
NoChange; the Grow test is made before the Shrink test. -/
theorem recommendSize_policy (s : VSCache) :
    (s.hits + s.nearMiss + s.farMiss = 0 → s.recommendSize.1 = CacheAction.Clear) ∧
    (0 < s.hits + s.nearMiss + s.farMiss → s.hits + s.nearMiss + s.farMiss < 30 →
      s.recommendSize.1 = CacheAction.NoChange) ∧
    (30 ≤ s.hits + s.nearMiss + s.farMiss →
      s.nearMiss * 20 ≥ s.hits + s.nearMiss + s.farMiss →
      s.recommendSize.1 = CacheAction.Grow) ∧
    (30 ≤ s.hits + s.nearMiss + s.farMiss →
      s.nearMiss * 20 < s.hits + s.nearMiss + s.farMiss →
      s.nearMiss = 0 → s.hits = 0 → s.recommendSize.1 = CacheAction.Shrink) ∧
    (30 ≤ s.hits + s.nearMiss + s.farMiss →
      s.nearMiss * 20 < s.hits + s.nearMiss + s.farMiss →
      ¬(s.nearMiss = 0 ∧ s.hits = 0) → s.recommendSize.1 = CacheAction.NoChange) := by
  refine ⟨?_, ?_, ?_, ?_, ?_⟩
  · intro h
    rw [recommendSize_fst, if_pos h]
  · intro h0 h30
    rw [recommendSize_fst, if_neg (by omega), if_pos h30]
  · intro h30 hg
    rw [recommendSize_fst, if_neg (by omega), if_neg (by omega), if_pos hg]
  · intro h30 hg hnm hh
    rw [recommendSize_fst, if_neg (by omega), if_neg (by omega), if_neg (by omega),
      if_pos ⟨hnm, hh⟩]
  · intro h30 hg hns
    rw [recommendSize_fst, if_neg (by omega), if_neg (by omega), if_neg (by omega),
      if_neg hns]

/-- C1 witness: the four concrete policy-threshold examples. -/
theorem recommendSize_policy_witness :
    ((VSCache.mk0 20 20 false).recommendSize.1 = CacheAction.Clear) ∧
    (({ VSCache.mk0 20 20 false with hits := 5, farMiss := 10 }).recommendSize.1
        = CacheAction.NoChange) ∧
    (({ VSCache.mk0 20 20 false with nearMiss := 6, farMiss := 94 }).recommendSize.1
        = CacheAction.Grow) ∧
    (({ VSCache.mk0 20 20 false with farMiss := 100 }).recommendSize.1
        = CacheAction.Shrink) := by
  refine ⟨?_, ?_, ?_, ?_⟩
  · exact (recommendSize_policy (VSCache.mk0 20 20 false)).1 (by decide)
  · exact (recommendSize_policy _).2.1 (by decide) (by decide)
  · exact (recommendSize_policy _).2.2.1 (by decide) (by decide)
  · exact (recommendSize_policy _).2.2.2.1 (by decide) (by decide) (by decide) (by decide)

/-- C4 counterexample: with hits = 5, nearMiss = 0, farMiss = 10 (total
15, below the sample threshold) recommendSize returns NoChange but does
not reset the statistics: they stay 5 and 10. -/
theorem recommendSize_reset_counterexample :
    (({ VSCache.mk0 20 20 false with hits := 5, farMiss := 10 }).recommendSize.1
        = CacheAction.NoChange) ∧
    (({ VSCache.mk0 20 20 false with hits := 5, farMiss := 10 }).recommendSize.2.hits = 5) ∧
    (({ VSCache.mk0 20 20 false with hits := 5, farMiss := 10 }).recommendSize.2.farMiss
        = 10) := by
  decide

/-- C4 amended: recommendSize resets the statistics to zero whenever the
total reaches the sample threshold 30 (the Grow, Shrink and evaluated
NoChange outcomes); on the Clear outcome (total = 0) the statistics are
necessarily already zero and the state is returned unchanged; on the
small-sample NoChange outcome (0 < total < 30) the statistics are left
untouched so that they keep accumulating. -/
theorem recommendSize_stats_reset (s : VSCache) :
    (30 ≤ s.hits + s.nearMiss + s.farMiss →
      s.recommendSize.2.hits = 0 ∧ s.recommendSize.2.nearMiss = 0 ∧
        s.recommendSize.2.farMiss = 0) ∧
    (s.hits + s.nearMiss + s.farMiss = 0 →
      s.recommendSize.2.hits = 0 ∧ s.recommendSize.2.nearMiss = 0 ∧
        s.recommendSize.2.farMiss = 0) ∧
    (0 < s.hits + s.nearMiss + s.farMiss → s.hits + s.nearMiss + s.farMiss < 30 →
      s.recommendSize.2 = s) := by
  refine ⟨?_, ?_, ?_⟩
  · intro h30
    rw [recommendSize_snd, if_neg (by omega), if_neg (by omega)]
    simp [VSCache.clearStats]
  · intro h0
    rw [recommendSize_snd, if_pos h0]
    omega
  · intro h0 h30
    rw [recommendSize_snd, if_neg (by omega), if_pos h30]

/-- C4 amended witness: concrete states for the evaluated and the
small-sample regimes. -/
theorem recommendSize_stats_reset_witness :
    (({ VSCache.mk0 20 20 false with hits := 40, nearMiss := 3 }).recommendSize.2.hits = 0 ∧
      ({ VSCache.mk0 20 20 false with hits := 40, nearMiss := 3 }).recommendSize.2.nearMiss
        = 0 ∧
      ({ VSCache.mk0 20 20 false with hits := 40, nearMiss := 3 }).recommendSize.2.farMiss
        = 0) ∧
    (({ VSCache.mk0 20 20 false with hits := 5, farMiss := 10 }).recommendSize.2
        = { VSCache.mk0 20 20 false with hits := 5, farMiss := 10 }) := by
  refine ⟨?_, ?_⟩
  · exact (recommendSize_stats_reset _).1 (by decide)
  · exact (recommendSize_stats_reset _).2.2 (by decide) (by decide)

/-- C5 counterexample: a non-fixed cache with maxSize = 1, one live
entry, and statistics farMiss = 30 gets a Shrink recommendation; under
memory pressure adjustSize sets maxSize to max(1-2, 0) = 0 without
clearing the cache, so the live capacity drops below 1 with no clear. -/
theorem adjustSize_pressure_floor_counterexample :
    ((({ VSCache.mk0 1 20 false with
          entries := [⟨0, some 3⟩], currentSize := 1, farMiss := 30 }).adjustSize
        true).maxSize = 0) ∧
    ((({ VSCache.mk0 1 20 false with
          entries := [⟨0, some 3⟩], currentSize := 1, farMiss := 30 }).adjustSize
        true).entries = [⟨0, some 3⟩]) := by
  decide

/-- C5 amended: under memory pressure with auto-resizing enabled and a
starting live capacity of at least 1, every outcome other than Shrink
either clears the cache or leaves the resulting capacity at least 1; the
Shrink outcome alone can drive the capacity to 0 without a clear. -/
theorem adjustSize_pressure_floor (s : VSCache) (hfs : s.fixedSize = false)
    (h1 : 1 ≤ s.maxSize) (hns : s.recommendSize.1 ≠ CacheAction.Shrink) :
    (s.adjustSize true).entries = [] ∨ 1 ≤ (s.adjustSize true).maxSize := by
  rw [adjust_true_eq s hfs]
  rcases h : s.recommendSize with ⟨a, t⟩
  have hms : t.maxSize = s.maxSize := by
    have hx := (recommendSize_snd_fields s).2.2.2.2.1
    rwa [h] at hx
  rw [h] at hns
  cases a with
  | Clear =>
      left
      dsimp only
      simp [VSCache.clear, VSCache.setMaxFrames]
  | Grow =>
      right
      dsimp only
      rw [hms]
      exact h1
  | Shrink => exact absurd rfl hns
  | NoChange =>
      right
      dsimp only
      split_ifs <;> simp [VSCache.setMaxFrames, VSCache.getMaxFrames, VSCache.clear]

/-- C5 amended witness: with statistics giving NoChange (30 hits) and
capacity 5, pressure adjustment keeps the capacity at least 1. -/
theorem adjustSize_pressure_floor_witness :
    ((({ VSCache.mk0 5 20 false with hits := 30 }).adjustSize true).entries = [] ∨
      1 ≤ (({ VSCache.mk0 5 20 false with hits := 30 }).adjustSize true).maxSize) :=
  adjustSize_pressure_floor _ (by decide) (by decide) (by decide)

/-- C6 counterexample: from maxSize = 0 (reachable via normal-mode
shrinking) with statistics hits = 30 the recommendation is NoChange, and
the pressure branch clears and then sets maxSize to max(0-1, 1) = 1,
strictly increasing the capacity. -/
theorem adjustSize_pressure_no_grow_counterexample :
    (({ VSCache.mk0 0 20 false with hits := 30 }).maxSize = 0) ∧
    ((({ VSCache.mk0 0 20 false with hits := 30 }).adjustSize true).maxSize = 1) := by
  decide

/-- C6 amended: under memory pressure with auto-resizing enabled,
adjustSize never increases the live capacity from any starting capacity
of at least 1, and a Grow recommendation is ignored outright (capacity
unchanged) from every starting capacity; only from capacity 0 can the
NoChange floor raise the capacity to 1. -/
theorem adjustSize_pressure_no_grow (s : VSCache) (hfs : s.fixedSize = false) :
    (1 ≤ s.maxSize → (s.adjustSize true).maxSize ≤ s.maxSize) ∧
    (s.recommendSize.1 = CacheAction.Grow →
      (s.adjustSize true).maxSize = s.maxSize) := by
  rw [adjust_true_eq s hfs]
  rcases h : s.recommendSize with ⟨a, t⟩
  have hms : t.maxSize = s.maxSize := by
    have hx := (recommendSize_snd_fields s).2.2.2.2.1
    rwa [h] at hx
  constructor
  · intro h1
    cases a with
    | Clear =>
        dsimp only
        simp only [VSCache.setMaxFrames, VSCache.getMaxFrames, VSCache.clear]
        simp only [hms]
        exact max_le (by omega) (by omega)
    | Grow => exact hms.le
    | Shrink =>
        dsimp only
        simp only [VSCache.setMaxFrames, VSCache.getMaxFrames]
        simp only [hms]
        exact max_le (by omega) (by omega)
    | NoChange =>
        dsimp only
        split_ifs <;>
          simp only [VSCache.setMaxFrames, VSCache.getMaxFrames, VSCache.clear] <;>
          simp only [hms] <;> exact max_le (by omega) (by omega)
  · intro ha
    cases a with
    | Clear => simp at ha
    | Grow => exact hms
    | Shrink => simp at ha
    | NoChange => simp at ha

/-- C6 amended witness: at capacity 7 with Grow statistics (hits = 30,
nearMiss = 10) pressure adjustment leaves the capacity unchanged. -/
theorem adjustSize_pressure_no_grow_witness :
    ((({ VSCache.mk0 7 20 false with hits := 30, nearMiss := 10 }).adjustSize true).maxSize
        ≤ ({ VSCache.mk0 7 20 false with hits := 30, nearMiss := 10 }).maxSize) ∧
    ((({ VSCache.mk0 7 20 false with hits := 30, nearMiss := 10 }).adjustSize true).maxSize
        = ({ VSCache.mk0 7 20 false with hits := 30, nearMiss := 10 }).maxSize) := by
  refine ⟨?_, ?_⟩
  · exact (adjustSize_pressure_no_grow _ (by decide)).1 (by decide)
  · exact (adjustSize_pressure_no_grow _ (by decide)).2 (by decide)

/-- clearFrameAt preserves the list length. -/
theorem clearFrameAt_length (l : List Node) (j : Nat) :
    (clearFrameAt l j).length = l.length := by
  induction l generalizing j with
  | nil => rfl
  | cons nd rest ih => cases j <;> simp [clearFrameAt, ih]

/-- clearFrameAt does not touch the prefix before its position. -/
theorem clearFrameAt_take (l : List Node) (j : Nat) :
    (clearFrameAt l j).take j = l.take j := by
  induction l generalizing j with
  | nil => rfl
  | cons nd rest ih =>
      cases j with
      | zero => rfl
      | succ j => simp [clearFrameAt, ih]

/-- After clearing the frame at position j, the whole suffix from j on is
frameless provided the suffix after j already was. -/
theorem clearFrameAt_drop_none (l : List Node) (j : Nat)
    (h : ∀ nd ∈ l.drop (j + 1), nd.frame = none) :
    ∀ nd ∈ (clearFrameAt l j).drop j, nd.frame = none := by
  induction l generalizing j with
  | nil => intro nd hnd; simp [clearFrameAt] at hnd
  | cons nd0 rest ih =>
      cases j with
      | zero =>
          intro nd hnd
          simp only [clearFrameAt, List.drop_zero] at hnd
          rcases List.mem_cons.mp hnd with h1 | h2
          · rw [h1]
          · exact h nd (by simpa using h2)
      | succ j =>
          intro nd hnd
          simp only [clearFrameAt, List.drop_succ_cons] at hnd
          exact ih j (fun x hx => h x (by simpa using hx)) nd hnd

/-- eraseAt at a valid position shortens the list by one. -/
theorem eraseAt_length (l : List Node) (j : Nat) (h : j < l.length) :
    (eraseAt l j).length + 1 = l.length := by
  induction l generalizing j with
  | nil => simp at h
  | cons nd rest ih =>
      cases j with
      | zero => simp [eraseAt]
      | succ j =>
          have := ih j (by simpa using h)
          simp [eraseAt]
          omega

/-- Every node surviving eraseAt was in the original list. -/
theorem eraseAt_subset (l : List Node) (j : Nat) : ∀ nd ∈ eraseAt l j, nd ∈ l := by
  induction l generalizing j with
  | nil => simp [eraseAt]
  | cons nd0 rest ih =>
      cases j with
      | zero => intro nd hnd; exact List.mem_cons_of_mem _ hnd
      | succ j =>
          intro nd hnd
          rcases List.mem_cons.mp hnd with h1 | h2
          · exact h1 ▸ List.mem_cons_self _ _
          · exact List.mem_cons_of_mem _ (ih j nd h2)

/-- eraseAt does not touch a prefix ending at or before its position. -/
theorem eraseAt_take_of_le (l : List Node) (j b : Nat) (h : b ≤ j) :
    (eraseAt l j).take b = l.take b := by
  induction l generalizing j b with
  | nil => rfl
  | cons nd rest ih =>
      cases b with
      | zero => rfl
      | succ b =>
          cases j with
          | zero => omega
          | succ j => simp [eraseAt, ih j b (by omega)]

/-- Dropping to a point at or before the erased position commutes with
the erasure. -/
theorem eraseAt_drop_of_le (l : List Node) (j b : Nat) (h : b ≤ j) :
    (eraseAt l j).drop b = eraseAt (l.drop b) (j - b) := by
  induction l generalizing j b with
  | nil => simp [eraseAt]
  | cons nd rest ih =>
      cases b with
      | zero => simp
      | succ b =>
          cases j with
          | zero => omega
          | succ j =>
              have := ih j b (by omega)
              simp only [eraseAt, List.drop_succ_cons]
              simpa using this

/-- Erasing strictly before a drop point shifts the drop point by one. -/
theorem eraseAt_drop_of_lt (l : List Node) (j b : Nat) (h : j < b) :
    (eraseAt l j).drop (b - 1) = l.drop b := by
  induction l generalizing j b with
  | nil => simp [eraseAt]
  | cons nd rest ih =>
      cases j with
      | zero =>
          obtain ⟨b, rfl⟩ : ∃ c, b = c + 1 := ⟨b - 1, by omega⟩
          simp [eraseAt]
      | succ j =>
          obtain ⟨b, rfl⟩ : ∃ c, b = c + 1 := ⟨b - 1, by omega⟩
          have := ih j b (by omega)
          cases b with
          | zero => omega
          | succ b =>
              simp only [eraseAt, Nat.add_sub_cancel] at this ⊢
              simpa [List.drop_succ_cons] using this

/-- nodeAt? misses exactly beyond the end of the list. -/
theorem nodeAt?_eq_none_iff (l : List Node) (j : Nat) :
    nodeAt? l j = none ↔ l.length ≤ j := by
  induction l generalizing j with
  | nil => simp [nodeAt?]
  | cons nd rest ih =>
      cases j with
      | zero => simp [nodeAt?]
      | succ j =>
          rw [nodeAt?, ih]
          simp

/-- A successful nodeAt? lookup is inside the list. -/
theorem nodeAt?_lt_length (l : List Node) (j : Nat) (nd : Node)
    (h : nodeAt? l j = some nd) : j < l.length := by
  by_contra hh
  rw [(nodeAt?_eq_none_iff l j).2 (by omega)] at h
  cases h

/-- A node found at a position below b lies in the prefix of length b. -/
theorem nodeAt?_mem_take (l : List Node) (j b : Nat) (nd : Node) (hb : j < b)
    (h : nodeAt? l j = some nd) : nd ∈ l.take b := by
  induction l generalizing j b with
  | nil => cases h
  | cons nd0 rest ih =>
      cases j with
      | zero =>
          obtain ⟨b, rfl⟩ : ∃ c, b = c + 1 := ⟨b - 1, by omega⟩
          injection h with h
          subst h
          simp
      | succ j =>
          obtain ⟨b, rfl⟩ : ∃ c, b = c + 1 := ⟨b - 1, by omega⟩
          rw [nodeAt?] at h
          simp only [List.take_succ_cons]
          exact List.mem_cons_of_mem _ (ih j b (by omega) h)

/-- A node found at a position at or after b lies in the suffix from b. -/
theorem nodeAt?_mem_drop (l : List Node) (j b : Nat) (nd : Node) (hb : b ≤ j)
    (h : nodeAt? l j = some nd) : nd ∈ l.drop b := by
  induction l generalizing j b with
  | nil => cases h
  | cons nd0 rest ih =>
      cases j with
      | zero =>
          have : b = 0 := by omega
          subst this
          injection h with h
          subst h
          simp
      | succ j =>
          rw [nodeAt?] at h
          cases b with
          | zero =>
              simp only [List.drop_zero]
              exact List.mem_cons_of_mem _ (by simpa using ih j 0 (by omega) h)
          | succ b =>
              simp only [List.drop_succ_cons]
              exact ih j b (by omega) h

/-- A successful nodeAt? lookup is a member of the list. -/
theorem nodeAt?_mem (l : List Node) (j : Nat) (nd : Node)
    (h : nodeAt? l j = some nd) : nd ∈ l := by
  simpa using nodeAt?_mem_drop l j 0 nd (by omega) h

/-- findKeyIdx misses exactly when no node holds the key. -/
theorem findKeyIdx_none_iff (l : List Node) (k : Int) :
    findKeyIdx l k = none ↔ ∀ nd ∈ l, nd.key ≠ k := by
  induction l with
  | nil => simp [findKeyIdx]
  | cons nd rest ih => by_cases h : nd.key = k <;> simp [findKeyIdx, h, ih]

/-- A successful findKeyIdx points at a node holding the key. -/
theorem findKeyIdx_some (l : List Node) (k : Int) (j : Nat)
    (h : findKeyIdx l k = some j) : ∃ nd, nodeAt? l j = some nd ∧ nd.key = k := by
  induction l generalizing j with
  | nil => cases h
  | cons nd0 rest ih =>
      rw [findKeyIdx] at h
      by_cases hk : nd0.key = k
      · rw [if_pos hk] at h
        injection h with h
        subst h
        exact ⟨nd0, rfl, hk⟩
      · rw [if_neg hk] at h
        rcases ho : findKeyIdx rest k with _ | j0
        · rw [ho] at h; cases h
        · rw [ho] at h
          simp at h
          obtain ⟨nd, hnd, hkey⟩ := ih j0 ho
          have : j = j0 + 1 := by omega
          subst this
          exact ⟨nd, hnd, hkey⟩

/-- Erasing the unique node holding a key removes the key entirely. -/
theorem eraseAt_no_key (l : List Node) (j : Nat) (k : Int) (nd : Node)
    (hnodup : (l.map (fun x => x.key)).Nodup)
    (h : nodeAt? l j = some nd) (hk : nd.key = k) :
    ∀ x ∈ eraseAt l j, x.key ≠ k := by
  induction l generalizing j with
  | nil => cases h
  | cons nd0 rest ih =>
      rw [List.map_cons, List.nodup_cons] at hnodup
      obtain ⟨hn0, hnr⟩ := hnodup
      cases j with
      | zero =>
          injection h with h
          subst h
          intro x hx hxk
          apply hn0
          rw [hk, ← hxk]
          exact List.mem_map_of_mem _ hx
      | succ j =>
          rw [nodeAt?] at h
          intro x hx
          rcases List.mem_cons.mp hx with rfl | hx2
          · intro hc
            apply hn0
            rw [hc, ← hk]
            exact List.mem_map_of_mem _ (nodeAt?_mem rest j nd h)
          · exact ih j hnr h x hx2

/-- A prefix member stays a member of any longer prefix. -/
theorem mem_take_of_le (l : List Node) (m n : Nat) (h : m ≤ n) :
    ∀ a ∈ l.take m, a ∈ l.take n := by
  intro a ha
  have he : l.take m = (l.take n).take m := by
    rw [List.take_take, Nat.min_eq_left h]
  rw [he] at ha
  exact List.take_subset _ _ ha

/-- Erasing strictly inside a prefix keeps its members inside the one
step shorter prefix of the original list. -/
theorem eraseAt_take_subset_of_lt (l : List Node) (j i : Nat) (h : j < i) :
    ∀ x ∈ (eraseAt l j).take (i - 1), x ∈ l.take i := by
  induction l generalizing j i with
  | nil => simp [eraseAt]
  | cons nd0 rest ih =>
      cases j with
      | zero =>
          intro x hx
          obtain ⟨i, rfl⟩ : ∃ c, i = c + 1 := ⟨i - 1, by omega⟩
          simp only [eraseAt, Nat.add_sub_cancel] at hx
          simp only [List.take_succ_cons]
          exact List.mem_cons_of_mem _ hx
      | succ j =>
          intro x hx
          obtain ⟨i, rfl⟩ : ∃ c, i = c + 1 := ⟨i - 1, by omega⟩
          simp only [eraseAt, Nat.add_sub_cancel] at hx
          cases i with
          | zero => simp at hx
          | succ i =>
              simp only [List.take_succ_cons] at hx ⊢
              rcases List.mem_cons.mp hx with rfl | hx2
              · exact List.mem_cons_self _ _
              · refine List.mem_cons_of_mem _ (ih j (i + 1) (by omega) x ?_)
                simpa using hx2

/-- Under the invariant with a positive live count, one demotion pass has
this explicit shape. -/
theorem trimLiveStep_eq (s : VSCache) (hwf : s.wf) (hc : 0 < s.currentSize) :
    s.trimLiveStep =
      { s with
        weakpoint := some (s.boundary - 1),
        entries := clearFrameAt s.entries (s.boundary - 1),
        currentSize := s.currentSize - 1,
        historySize := s.historySize + 1 } := by
  obtain ⟨hb, htake, hdrop, hcur, hhist⟩ := hwf
  have hb0 : 0 < s.boundary := by omega
  rcases hw : s.weakpoint with _ | i
  · have hbl : s.boundary = s.entries.length := by simp [VSCache.boundary, hw]
    have hlen : ¬(s.entries.length = 0) := by omega
    simp [VSCache.trimLiveStep, hw, hlen, hbl]
  · have hbl : s.boundary = i := by simp [VSCache.boundary, hw]
    have hi : ¬(i = 0) := by omega
    simp [VSCache.trimLiveStep, hw, hi, hbl]

/-- One demotion pass preserves the invariant and moves one unit from the
live count to the ghost count. -/
theorem trimLiveStep_wf (s : VSCache) (hwf : s.wf) (hc : 0 < s.currentSize) :
    s.trimLiveStep.wf ∧
    s.trimLiveStep.currentSize = s.currentSize - 1 ∧
    s.trimLiveStep.historySize = s.historySize + 1 ∧
    s.trimLiveStep.entries.length = s.entries.length := by
  have heq := trimLiveStep_eq s hwf hc
  obtain ⟨hb, htake, hdrop, hcur, hhist⟩ := hwf
  have hb0 : 0 < s.boundary := by omega
  rw [heq]
  set b := s.boundary with hbdef
  refine ⟨⟨?_, ?_, ?_, ?_, ?_⟩, rfl, rfl, ?_⟩
  · dsimp only [VSCache.boundary]
    rw [clearFrameAt_length]
    omega
  · intro nd hnd
    dsimp only [VSCache.boundary] at hnd
    rw [clearFrameAt_take] at hnd
    exact htake nd (mem_take_of_le _ _ _ (by omega) nd hnd)
  · intro nd hnd
    dsimp only [VSCache.boundary] at hnd
    refine clearFrameAt_drop_none s.entries (b - 1) ?_ nd hnd
    intro x hx
    apply hdrop
    have hb1 : b - 1 + 1 = b := by omega
    rwa [hb1] at hx
  · dsimp only [VSCache.boundary]
    omega
  · dsimp only [VSCache.boundary]
    rw [clearFrameAt_length]
    omega
  · simp [clearFrameAt_length]

/-- The first trim loop preserves the invariant and, given enough fuel
(as trim supplies), ends with the live count at or below the bound. -/
theorem trimLiveLoop_wf (fuel : Nat) : ∀ (s : VSCache) (mx : Int), s.wf → 0 ≤ mx →
    (s.currentSize - mx).toNat ≤ fuel →
    (VSCache.trimLiveLoop s mx fuel).wf ∧
    (VSCache.trimLiveLoop s mx fuel).currentSize ≤ mx := by
  induction fuel with
  | zero =>
      intro s mx hwf hmx hfuel
      simp only [VSCache.trimLiveLoop]
      exact ⟨hwf, by omega⟩
  | succ fuel ih =>
      intro s mx hwf hmx hfuel
      simp only [VSCache.trimLiveLoop]
      by_cases hc : s.currentSize > mx
      · rw [if_pos hc]
        have hst := trimLiveStep_wf s hwf (by omega)
        apply ih _ mx hst.1 hmx
        rw [hst.2.1]
        omega
      · rw [if_neg hc]
        exact ⟨hwf, by omega⟩

/-- Unlinking any node preserves the invariant. -/
theorem unlinkAt_wf (s : VSCache) (j : Nat) (hwf : s.wf) : (s.unlinkAt j).wf := by
  obtain ⟨hb, htake, hdrop, hcur, hhist⟩ := hwf
  rcases hnd : nodeAt? s.entries j with _ | nd
  · simpa [VSCache.unlinkAt, hnd] using ⟨hb, htake, hdrop, hcur, hhist⟩
  · have hjlen : j < s.entries.length := nodeAt?_lt_length _ _ _ hnd
    have hlen1 : (eraseAt s.entries j).length + 1 = s.entries.length :=
      eraseAt_length _ _ hjlen
    have hframe : nd.frame.isSome = true ↔ j < s.boundary := by
      constructor
      · intro hf
        by_contra hcon
        have hm : nd ∈ s.entries.drop s.boundary :=
          nodeAt?_mem_drop _ _ _ _ (by omega) hnd
        rw [hdrop nd hm] at hf
        cases hf
      · intro hlt
        exact htake nd (nodeAt?_mem_take _ _ _ _ hlt hnd)
    rcases hw : s.weakpoint with _ | i
    · -- no weakpoint: every node is live, including the unlinked one
      have hbl : s.boundary = s.entries.length := by simp [VSCache.boundary, hw]
      rw [hbl] at hb htake hdrop hcur hhist hframe
      rw [List.take_length] at htake
      have hf : nd.frame.isSome = true := hframe.2 (by omega)
      have heq : s.unlinkAt j =
          { s with entries := eraseAt s.entries j,
                   currentSize := s.currentSize - 1, weakpoint := none } := by
        simp [VSCache.unlinkAt, hnd, hw, hf]
      rw [heq]
      refine ⟨?_, ?_, ?_, ?_, ?_⟩
      · dsimp only [VSCache.boundary]
        exact le_refl _
      · intro x hx
        dsimp only [VSCache.boundary] at hx
        rw [List.take_length] at hx
        exact htake x (eraseAt_subset _ _ x hx)
      · intro x hx
        dsimp only [VSCache.boundary] at hx
        rw [List.drop_length] at hx
        cases hx
      · dsimp only [VSCache.boundary]
        omega
      · dsimp only [VSCache.boundary]
        omega
    · have hbl : s.boundary = i := by simp [VSCache.boundary, hw]
      rw [hbl] at hb htake hdrop hcur hhist hframe
      rcases lt_trichotomy j i with hji | rfl | hji
      · -- unlinking a live node strictly before the weakpoint
        have hf : nd.frame.isSome = true := hframe.2 (by omega)
        have heq : s.unlinkAt j =
            { s with entries := eraseAt s.entries j,
                     currentSize := s.currentSize - 1, weakpoint := some (i - 1) } := by
          simp [VSCache.unlinkAt, hnd, hw, hf, hji]
        rw [heq]
        refine ⟨?_, ?_, ?_, ?_, ?_⟩
        · dsimp only [VSCache.boundary]
          omega
        · intro x hx
          dsimp only [VSCache.boundary] at hx
          exact htake x (eraseAt_take_subset_of_lt _ _ _ hji x hx)
        · intro x hx
          dsimp only [VSCache.boundary] at hx
          rw [eraseAt_drop_of_lt _ _ _ hji] at hx
          exact hdrop x hx
        · dsimp only [VSCache.boundary]
          omega
        · dsimp only [VSCache.boundary]
          omega
      · -- unlinking the weakpoint node itself
        have hf : nd.frame.isSome = false := by
          cases hfs : nd.frame.isSome with
          | false => rfl
          | true => exact absurd (hframe.1 hfs) (by omega)
        by_cases hi1 : j + 1 < s.entries.length
        · have heq : s.unlinkAt j =
              { s with entries := eraseAt s.entries j,
                       historySize := s.historySize - 1, weakpoint := some j } := by
            simp [VSCache.unlinkAt, hnd, hw, hf, hi1]
          rw [heq]
          refine ⟨?_, ?_, ?_, ?_, ?_⟩
          · dsimp only [VSCache.boundary]
            omega
          · intro x hx
            dsimp only [VSCache.boundary] at hx
            rw [eraseAt_take_of_le _ _ _ (le_refl j)] at hx
            exact htake x hx
          · intro x hx
            dsimp only [VSCache.boundary] at hx
            rw [eraseAt_drop_of_le _ _ _ (le_refl j)] at hx
            exact hdrop x (eraseAt_subset _ _ x hx)
          · dsimp only [VSCache.boundary]
            omega
          · dsimp only [VSCache.boundary]
            omega
        · -- the weakpoint is the last node; it goes away entirely
          have heq : s.unlinkAt j =
              { s with entries := eraseAt s.entries j,
                       historySize := s.historySize - 1, weakpoint := none } := by
            simp [VSCache.unlinkAt, hnd, hw, hf, hi1]
          rw [heq]
          have hlen2 : (eraseAt s.entries j).length = j := by omega
          refine ⟨?_, ?_, ?_, ?_, ?_⟩
          · dsimp only [VSCache.boundary]
            exact le_refl _
          · intro x hx
            dsimp only [VSCache.boundary] at hx
            rw [List.take_length] at hx
            have hx2 : x ∈ (eraseAt s.entries j).take j := by
              rw [List.take_of_length_le (by omega)]
              exact hx
            rw [eraseAt_take_of_le _ _ _ (le_refl j)] at hx2
            exact htake x hx2
          · intro x hx
            dsimp only [VSCache.boundary] at hx
            rw [List.drop_length] at hx
            cases hx
          · dsimp only [VSCache.boundary]
            omega
          · dsimp only [VSCache.boundary]
            omega
      · -- unlinking a ghost node strictly past the weakpoint
        have hf : nd.frame.isSome = false := by
          cases hfs : nd.frame.isSome with
          | false => rfl
          | true => exact absurd (hframe.1 hfs) (by omega)
        have heq : s.unlinkAt j =
            { s with entries := eraseAt s.entries j,
                     historySize := s.historySize - 1, weakpoint := some i } := by
          simp [VSCache.unlinkAt, hnd, hw, hf, show ¬ j < i by omega,
            show ¬ j = i by omega]
        rw [heq]
        refine ⟨?_, ?_, ?_, ?_, ?_⟩
        · dsimp only [VSCache.boundary]
          omega
        · intro x hx
          dsimp only [VSCache.boundary] at hx
          rw [eraseAt_take_of_le _ _ _ (by omega)] at hx
          exact htake x hx
        · intro x hx
          dsimp only [VSCache.boundary] at hx
          rw [eraseAt_drop_of_le _ _ _ (by omega)] at hx
          exact hdrop x (eraseAt_subset _ _ x hx)
        · dsimp only [VSCache.boundary]
          omega
        · dsimp only [VSCache.boundary]
          omega

/-- Under the invariant with ghosts present, unlinking the last node
removes a ghost: the invariant survives, the ghost count drops by one,
and the live count is untouched. -/
theorem unlinkLast_ghost (s : VSCache) (hwf : s.wf) (hh : 0 < s.historySize) :
    (s.unlinkAt (s.entries.length - 1)).wf ∧
    (s.unlinkAt (s.entries.length - 1)).historySize = s.historySize - 1 ∧
    (s.unlinkAt (s.entries.length - 1)).currentSize = s.currentSize := by
  obtain ⟨hb, htake, hdrop, hcur, hhist⟩ := hwf
  have hblen : s.boundary < s.entries.length := by omega
  obtain ⟨nd, hnd⟩ : ∃ nd, nodeAt? s.entries (s.entries.length - 1) = some nd := by
    rcases ho : nodeAt? s.entries (s.entries.length - 1) with _ | nd
    · rw [nodeAt?_eq_none_iff] at ho
      omega
    · exact ⟨nd, rfl⟩
  have hmem : nd ∈ s.entries.drop s.boundary :=
    nodeAt?_mem_drop _ _ _ _ (by omega) hnd
  have hfr : nd.frame = none := hdrop nd hmem
  refine ⟨unlinkAt_wf s _ ⟨hb, htake, hdrop, hcur, hhist⟩, ?_, ?_⟩ <;>
    simp [VSCache.unlinkAt, hnd, hfr]

/-- The second trim loop preserves the invariant, never touches the live
count, and with enough fuel (as trim supplies) ends with the ghost count
at or below the bound. -/
theorem trimGhostLoop_wf (fuel : Nat) : ∀ (s : VSCache) (mh : Int), s.wf → 0 ≤ mh →
    s.historySize.toNat ≤ fuel →
    (VSCache.trimGhostLoop s mh fuel).wf ∧
    (VSCache.trimGhostLoop s mh fuel).historySize ≤ mh ∧
    (VSCache.trimGhostLoop s mh fuel).currentSize = s.currentSize := by
  induction fuel with
  | zero =>
      intro s mh hwf hmh hfuel
      simp only [VSCache.trimGhostLoop]
      have hge : 0 ≤ s.historySize := by
        obtain ⟨_, _, _, _, hhist⟩ := hwf
        omega
      exact ⟨hwf, by omega, by trivial⟩
  | succ fuel ih =>
      intro s mh hwf hmh hfuel
      simp only [VSCache.trimGhostLoop]
      by_cases hcond : s.entries ≠ [] ∧ s.historySize > mh
      · rw [if_pos hcond]
        have hh : 0 < s.historySize := by omega
        have hu := unlinkLast_ghost s hwf hh
        have hrec := ih _ mh hu.1 hmh (by rw [hu.2.1]; omega)
        exact ⟨hrec.1, hrec.2.1, by rw [hrec.2.2, hu.2.2]⟩
      · rw [if_neg hcond]
        refine ⟨hwf, ?_, rfl⟩
        obtain ⟨hb, _, _, hcur, hhist⟩ := hwf
        by_cases he : s.entries = []
        · have hl : s.entries.length = 0 := by rw [he]; rfl
          omega
        · have hng : ¬ s.historySize > mh := fun hgt => hcond ⟨he, hgt⟩
          omega

/-- trim preserves the invariant and establishes the two capacity
bounds, for nonnegative bounds. -/
theorem trim_wf_bounds (s : VSCache) (mx mh : Int) (hwf : s.wf) (hmx : 0 ≤ mx)
    (hmh : 0 ≤ mh) :
    (s.trim mx mh).wf ∧ (s.trim mx mh).currentSize ≤ mx ∧
    (s.trim mx mh).historySize ≤ mh := by
  unfold VSCache.trim
  have h1 := trimLiveLoop_wf (s.currentSize - mx).toNat s mx hwf hmx (le_refl _)
  set s1 := s.trimLiveLoop mx (s.currentSize - mx).toNat with hs1
  obtain ⟨hwf1, hc1⟩ := h1
  have hfuel : s1.historySize.toNat ≤ s1.entries.length := by
    obtain ⟨hb, _, _, _, hhist⟩ := hwf1
    omega
  have h2 := trimGhostLoop_wf s1.entries.length s1 mh hwf1 hmh hfuel
  exact ⟨h2.1, by rw [h2.2.2]; exact hc1, h2.2.1⟩

/-- remove preserves the invariant. -/
theorem remove_wf (s : VSCache) (k : Int) (hwf : s.wf) : ((s.remove k).2).wf := by
  unfold VSCache.remove
  rcases h : findKeyIdx s.entries k with _ | j
  · exact hwf
  · exact unlinkAt_wf s j hwf

/-- remove never changes the configured capacities. -/
theorem remove_fields (s : VSCache) (k : Int) :
    (s.remove k).2.maxSize = s.maxSize ∧
    (s.remove k).2.maxHistorySize = s.maxHistorySize := by
  rcases h : findKeyIdx s.entries k with _ | j
  · simp [VSCache.remove, h]
  · rcases hnd : nodeAt? s.entries j with _ | nd <;>
      simp [VSCache.remove, VSCache.unlinkAt, h, hnd]

/-- Linking a fresh live node at the head (with the weakpoint index
shifted past it) preserves the invariant. -/
theorem consLive_wf (s : VSCache) (k : Int) (v : Nat) (hwf : s.wf) :
    ({ s with entries := ⟨k, some v⟩ :: s.entries,
              currentSize := s.currentSize + 1,
              weakpoint := s.weakpoint.map (· + 1) } : VSCache).wf := by
  obtain ⟨hb, htake, hdrop, hcur, hhist⟩ := hwf
  rcases hw : s.weakpoint with _ | i
  · have hbl : s.boundary = s.entries.length := by simp [VSCache.boundary, hw]
    rw [hbl] at hb htake hdrop hcur hhist
    rw [List.take_length] at htake
    refine ⟨?_, ?_, ?_, ?_, ?_⟩
    · dsimp only [Option.map, VSCache.boundary]
      exact le_refl _
    · intro x hx
      dsimp only [Option.map, VSCache.boundary] at hx
      rw [List.take_length] at hx
      rcases List.mem_cons.mp hx with rfl | hx2
      · rfl
      · exact htake x hx2
    · intro x hx
      dsimp only [Option.map, VSCache.boundary] at hx
      rw [List.drop_length] at hx
      cases hx
    · dsimp only [Option.map, VSCache.boundary]
      simp only [List.length_cons]
      omega
    · dsimp only [Option.map, VSCache.boundary]
      simp only [List.length_cons]
      omega
  · have hbl : s.boundary = i := by simp [VSCache.boundary, hw]
    rw [hbl] at hb htake hdrop hcur hhist
    refine ⟨?_, ?_, ?_, ?_, ?_⟩
    · dsimp only [Option.map, VSCache.boundary]
      simp only [List.length_cons]
      omega
    · intro x hx
      dsimp only [Option.map, VSCache.boundary] at hx
      rw [List.take_succ_cons] at hx
      rcases List.mem_cons.mp hx with rfl | hx2
      · rfl
      · exact htake x hx2
    · intro x hx
      dsimp only [Option.map, VSCache.boundary] at hx
      rw [List.drop_succ_cons] at hx
      exact hdrop x hx
    · dsimp only [Option.map, VSCache.boundary]
      omega
    · dsimp only [Option.map, VSCache.boundary]
      simp only [List.length_cons]
      omega

/-- insert preserves the invariant and, with nonnegative configured
capacities, leaves both counters within them. -/
theorem insert_wf_bounds (s : VSCache) (k : Int) (v : Nat) (hwf : s.wf)
    (hmx : 0 ≤ s.maxSize) (hmh : 0 ≤ s.maxHistorySize) :
    (s.insert k v).2.wf ∧ (s.insert k v).2.currentSize ≤ s.maxSize ∧
    (s.insert k v).2.historySize ≤ s.maxHistorySize := by
  have hw1 : (s.remove k).2.wf := remove_wf s k hwf
  have hf1 := remove_fields s k
  have hw2 := consLive_wf (s.remove k).2 k v hw1
  simp only [VSCache.insert]
  rw [hf1.1, hf1.2]
  exact trim_wf_bounds _ _ _ hw2 hmx hmh

/-- C2: for every cache state satisfying the data-model invariant and
nonnegative bounds, after trim(maxLive, maxGhost) the live count is at
most maxLive and the ghost count at most maxGhost; and since insert ends
by calling trim with the configured capacities, the configured bounds
hold after insert as well. -/
theorem trim_capacity_bounds (s : VSCache) (mx mh k : Int) (v : Nat)
    (hwf : s.wf) (hmx : 0 ≤ mx) (hmh : 0 ≤ mh) :
    ((s.trim mx mh).currentSize ≤ mx ∧ (s.trim mx mh).historySize ≤ mh) ∧
    (0 ≤ s.maxSize → 0 ≤ s.maxHistorySize →
      ((s.insert k v).2.currentSize ≤ s.maxSize ∧
        (s.insert k v).2.historySize ≤ s.maxHistorySize)) := by
  constructor
  · have h := trim_wf_bounds s mx mh hwf hmx hmh
    exact ⟨h.2.1, h.2.2⟩
  · intro h1 h2
    have h := insert_wf_bounds s k v hwf h1 h2
    exact ⟨h.2.1, h.2.2⟩

/-- C2 witness: a concrete two-node state (one live, one ghost) with
capacities 1 and 1, trimmed to bounds 1 and 0 and then receiving an
insert. -/
theorem trim_capacity_bounds_witness :
    sampleCache.wf ∧
    (((sampleCache.trim 1 0).currentSize ≤ 1 ∧ (sampleCache.trim 1 0).historySize ≤ 0) ∧
      (0 ≤ (1 : Int) → 0 ≤ (1 : Int) →
        ((sampleCache.insert 5 7).2.currentSize ≤ 1 ∧
          (sampleCache.insert 5 7).2.historySize ≤ 1))) := by
  refine ⟨by decide, ?_⟩
  exact trim_capacity_bounds sampleCache 1 0 5 7 (by decide) (by decide) (by decide)

/-- C9: remove reports whether the key was present: an absent key gives
false with the state untouched; a present key (under the unique-keys
invariant) gives true, with that node unlinked and destroyed, so the key
is gone and the list is one node shorter. -/
theorem remove_reports_presence (s : VSCache) (k : Int)
    (hnodup : (s.entries.map (fun nd => nd.key)).Nodup) :
    ((s.remove k).1 = s.containsKey k) ∧
    (s.containsKey k = false → (s.remove k).2 = s) ∧
    (s.containsKey k = true →
      (s.remove k).2.containsKey k = false ∧
      (s.remove k).2.entries.length + 1 = s.entries.length) := by
  unfold VSCache.remove
  rcases h : findKeyIdx s.entries k with _ | j
  · have hck : s.containsKey k = false := by
      rw [findKeyIdx_none_iff] at h
      simp only [VSCache.containsKey, List.any_eq_false]
      intro nd hnd
      simpa using h nd hnd
    refine ⟨by rw [hck], fun _ => rfl, fun hc => ?_⟩
    rw [hck] at hc
    cases hc
  · obtain ⟨nd, hnd, hkey⟩ := findKeyIdx_some _ _ _ h
    have hmem : nd ∈ s.entries := nodeAt?_mem _ _ _ hnd
    have hck : s.containsKey k = true := by
      simp only [VSCache.containsKey, List.any_eq_true]
      exact ⟨nd, hmem, by simpa using hkey⟩
    have hjlen : j < s.entries.length := nodeAt?_lt_length _ _ _ hnd
    refine ⟨by rw [hck], fun hc => ?_, fun _ => ⟨?_, ?_⟩⟩
    · rw [hck] at hc
      cases hc
    · have hkeys := eraseAt_no_key s.entries j k nd hnodup hnd hkey
      simp only [VSCache.unlinkAt, hnd]
      simp only [VSCache.containsKey, List.any_eq_false]
      intro x hx
      simpa using hkeys x hx
    · simp only [VSCache.unlinkAt, hnd]
      exact eraseAt_length _ _ hjlen

/-- C9 witness: the two-node cache, removing the present ghost key 2 and
then exercising the untouched-state branch at the absent key 9. -/
theorem remove_reports_presence_witness :
    ((sampleCache.remove 2).1 = sampleCache.containsKey 2) ∧
    ((sampleCache.remove 9).2 = sampleCache) := by
  constructor
  · exact (remove_reports_presence sampleCache 2 (by decide)).1
  · exact (remove_reports_presence sampleCache 9 (by decide)).2.1 (by decide)

/-- Membership in the inclusive integer range. -/
theorem mem_intRange (i lo hi : Int) : i ∈ intRange lo hi ↔ lo ≤ i ∧ i ≤ hi := by
  unfold intRange
  constructor
  · intro h
    obtain ⟨k, hk, hke⟩ := List.mem_map.mp h
    rw [List.mem_range] at hk
    omega
  · intro h
    refine List.mem_map.mpr ⟨(i - lo).toNat, ?_, ?_⟩
    · rw [List.mem_range]
      omega
    · omega

/-- C3: in the initial phase with linearization on and a cache miss,
when lastN < n < lastN + numThreads + 7 and n is not the direct
successor, the scheduler requests exactly the indices lastN+1 through n
(in order) and records marker lastN; otherwise it requests only n and
records the no-batch marker -2. -/
theorem initial_phase_batching (c : CacheInstance) (n : Int)
    (hmiss : (c.cache.relink n).1 = none) (hlin : c.makeLinear = true) :
    (c.lastN < n → n < c.lastN + c.numThreads + 7 → n ≠ c.lastN + 1 →
      ((cacheGetframeInitial c n).requests = intRange (c.lastN + 1) n ∧
        (∀ i, i ∈ (cacheGetframeInitial c n).requests ↔ c.lastN + 1 ≤ i ∧ i ≤ n) ∧
        (cacheGetframeInitial c n).fd = some c.lastN)) ∧
    (¬(c.lastN < n ∧ n < c.lastN + c.numThreads + 7 ∧ n ≠ c.lastN + 1) →
      ((cacheGetframeInitial c n).requests = [n] ∧
        (cacheGetframeInitial c n).fd = some (-2))) := by
  constructor
  · intro h1 h2 h3
    have hcond : c.makeLinear = true ∧ n ≠ c.lastN + 1 ∧ n > c.lastN ∧
        n < c.lastN + c.numThreads + extraFrames := ⟨hlin, h3, h1, h2⟩
    have hval : cacheGetframeInitial c n =
        ⟨none, intRange (c.lastN + 1) n, some c.lastN,
          { c with cache := (c.cache.relink n).2, lastN := n }⟩ := by
      simp only [cacheGetframeInitial, hmiss, if_pos hcond]
    rw [hval]
    exact ⟨rfl, fun i => mem_intRange i (c.lastN + 1) n, rfl⟩
  · intro hneg
    have hcond : ¬(c.makeLinear = true ∧ n ≠ c.lastN + 1 ∧ n > c.lastN ∧
        n < c.lastN + c.numThreads + extraFrames) := by
      intro hc
      exact hneg ⟨hc.2.2.1, hc.2.2.2, hc.2.1⟩
    have hval : cacheGetframeInitial c n =
        ⟨none, [n], some (-2), { c with cache := (c.cache.relink n).2, lastN := n }⟩ := by
      simp only [cacheGetframeInitial, hmiss, if_neg hcond]
    rw [hval]
    exact ⟨rfl, rfl⟩

/-- C3 witness: lastN = 10 and 4 workers on an empty cache; n = 15 is
batched as 11..15 with marker 10, n = 50 requests 50 alone with the
no-batch marker. -/
theorem initial_phase_batching_witness :
    ((cacheGetframeInitial ⟨VSCache.mk0 20 20 false, 10, 4, true⟩ 15).requests
        = [11, 12, 13, 14, 15] ∧
      (cacheGetframeInitial ⟨VSCache.mk0 20 20 false, 10, 4, true⟩ 15).fd = some 10) ∧
    ((cacheGetframeInitial ⟨VSCache.mk0 20 20 false, 10, 4, true⟩ 50).requests = [50] ∧
      (cacheGetframeInitial ⟨VSCache.mk0 20 20 false, 10, 4, true⟩ 50).fd = some (-2)) := by
  have h1 := initial_phase_batching ⟨VSCache.mk0 20 20 false, 10, 4, true⟩ 15
    (by decide) rfl
  have h2 := initial_phase_batching ⟨VSCache.mk0 20 20 false, 10, 4, true⟩ 50
    (by decide) rfl
  refine ⟨⟨?_, ?_⟩, ?_, ?_⟩
  · rw [(h1.1 (by decide) (by decide) (by decide)).1]
    decide
  · exact (h1.1 (by decide) (by decide) (by decide)).2.2
  · exact (h2.2 (by decide)).1
  · exact (h2.2 (by decide)).2

/-- C10: in the initial phase a cache hit returns the cached frame,
issues no upstream request, and leaves lastN unchanged; lastN moves to n
only on the miss path. -/
theorem initial_phase_hit_no_advance (c : CacheInstance) (n : Int) :
    ((c.cache.relink n).1.isSome = true →
      ((cacheGetframeInitial c n).returned = (c.cache.relink n).1 ∧
        (cacheGetframeInitial c n).requests = [] ∧
        (cacheGetframeInitial c n).inst.lastN = c.lastN)) ∧
    ((c.cache.relink n).1 = none → (cacheGetframeInitial c n).inst.lastN = n) := by
  constructor
  · intro h
    rcases hr : (c.cache.relink n).1 with _ | fr
    · rw [hr] at h
      cases h
    · simp [cacheGetframeInitial, hr]
  · intro h
    simp only [cacheGetframeInitial, h]
    split_ifs <;> rfl

/-- C10 witness: a one-entry cache hit at key 0 (frame 42), and a miss at
3 advancing lastN. -/
theorem initial_phase_hit_no_advance_witness :
    ((cacheGetframeInitial
        ⟨{ VSCache.mk0 20 20 false with entries := [⟨0, some 42⟩], currentSize := 1 },
          5, 4, true⟩ 0).returned = some 42 ∧
      (cacheGetframeInitial
        ⟨{ VSCache.mk0 20 20 false with entries := [⟨0, some 42⟩], currentSize := 1 },
          5, 4, true⟩ 0).requests = [] ∧
      (cacheGetframeInitial
        ⟨{ VSCache.mk0 20 20 false with entries := [⟨0, some 42⟩], currentSize := 1 },
          5, 4, true⟩ 0).inst.lastN = 5) ∧
    (cacheGetframeInitial
        ⟨{ VSCache.mk0 20 20 false with entries := [⟨0, some 42⟩], currentSize := 1 },
          5, 4, true⟩ 3).inst.lastN = 3 := by
  constructor
  · have h := (initial_phase_hit_no_advance
      ⟨{ VSCache.mk0 20 20 false with entries := [⟨0, some 42⟩], currentSize := 1 },
        5, 4, true⟩ 0).1 (by decide)
    exact ⟨by rw [h.1]; decide, h.2.1, h.2.2⟩
  · exact (initial_phase_hit_no_advance
      ⟨{ VSCache.mk0 20 20 false with entries := [⟨0, some 42⟩], currentSize := 1 },
        5, 4, true⟩ 3).2 (by decide)

/-- C7: in the ready phase a batch marker (at least -1) makes the
scheduler fetch and insert every intermediate index marker+1..n-1, then
fetch, insert and return frame n; the no-batch sentinel -2 inserts only
frame n and returns it. -/
theorem ready_phase_inserts (c : CacheInstance) (n fd : Int) (upstream : Int → Nat) :
    (-1 ≤ fd →
      ((cacheGetframeReady c n fd upstream).inserted = intRange (fd + 1) (n - 1) ++ [n] ∧
        (∀ i, i ∈ intRange (fd + 1) (n - 1) ↔ fd + 1 ≤ i ∧ i ≤ n - 1) ∧
        (cacheGetframeReady c n fd upstream).returned = upstream n)) ∧
    (fd = -2 →
      ((cacheGetframeReady c n fd upstream).inserted = [n] ∧
        (cacheGetframeReady c n fd upstream).returned = upstream n)) := by
  constructor
  · intro h
    have hge : fd ≥ -1 := h
    have hval : (cacheGetframeReady c n fd upstream).inserted =
        intRange (fd + 1) (n - 1) ++ [n] := by
      simp only [cacheGetframeReady, if_pos hge]
    exact ⟨hval, fun i => mem_intRange i (fd + 1) (n - 1), rfl⟩
  · intro h
    have hlt : ¬(fd ≥ -1) := by omega
    have hval : (cacheGetframeReady c n fd upstream).inserted = [n] := by
      simp only [cacheGetframeReady, if_neg hlt]
      rfl
    exact ⟨hval, rfl⟩

/-- C7 witness: marker 10, n = 15 inserts 11..15 in order with 15 last
and returns frame 15; the sentinel at n = 50 inserts only 50. -/
theorem ready_phase_inserts_witness :
    ((cacheGetframeReady ⟨VSCache.mk0 20 20 false, 10, 4, true⟩ 15 10
        (fun _ => 0)).inserted = [11, 12, 13, 14, 15] ∧
      (cacheGetframeReady ⟨VSCache.mk0 20 20 false, 10, 4, true⟩ 15 10
        (fun _ => 0)).returned = 0) ∧
    ((cacheGetframeReady ⟨VSCache.mk0 20 20 false, 10, 4, true⟩ 50 (-2)
        (fun _ => 0)).inserted = [50] ∧
      (cacheGetframeReady ⟨VSCache.mk0 20 20 false, 10, 4, true⟩ 50 (-2)
        (fun _ => 0)).returned = 0) := by
  have h1 := (ready_phase_inserts ⟨VSCache.mk0 20 20 false, 10, 4, true⟩ 15 10
    (fun _ => 0)).1 (by decide)
  have h2 := (ready_phase_inserts ⟨VSCache.mk0 20 20 false, 10, 4, true⟩ 50 (-2)
    (fun _ => 0)).2 (by decide)
  refine ⟨⟨?_, ?_⟩, ?_, ?_⟩
  · rw [h1.1]
    decide
  · rw [h1.2.2]
  · rw [h2.1]
  · rw [h2.2]

/-- C8: the live capacity at filter creation is the explicit size when
the parameter is present and positive; else, with linearization, the
larger of (workerCount+7)*2 and 20+workerCount; else 20. -/
theorem creation_capacity (sizeGiven : Bool) (size : Int) (ml : Bool)
    (numThreads : Int) :
    (sizeGiven = true → 0 < size →
      creationMaxFrames sizeGiven size ml numThreads = size) ∧
    (¬(sizeGiven = true ∧ 0 < size) → ml = true →
      creationMaxFrames sizeGiven size ml numThreads
        = max ((numThreads + 7) * 2) (20 + numThreads)) ∧
    (¬(sizeGiven = true ∧ 0 < size) → ml = false →
      creationMaxFrames sizeGiven size ml numThreads = 20) := by
  refine ⟨?_, ?_, ?_⟩
  · intro h1 h2
    rw [creationMaxFrames, if_pos ⟨h1, h2⟩]
  · intro h1 h2
    rw [creationMaxFrames, if_neg h1, if_pos h2]
    rfl
  · intro h1 h2
    rw [creationMaxFrames, if_neg h1, if_neg (by simp [h2])]

/-- C8 witness: size 50 given wins; absent size with linearization and 4
workers gives max(22, 24) = 24; without linearization gives 20. -/
theorem creation_capacity_witness :
    (creationMaxFrames true 50 true 4 = 50) ∧
    (creationMaxFrames false 0 true 4 = max ((4 + 7) * 2) (20 + 4)) ∧
    (creationMaxFrames false 0 false 4 = 20) := by
  refine ⟨?_, ?_, ?_⟩
  · exact (creation_capacity true 50 true 4).1 rfl (by decide)
  · exact (creation_capacity false 0 true 4).2.1 (by decide) rfl
  · exact (creation_capacity false 0 false 4).2.2 (by decide) rfl

end VSClassic
